import Mathlib

/-
Verification development for the XXHashVerify repository (src/src/lib.rs and
src/src/main.rs): a shallow embedding of the hashing engine, the manifest
codec, the generate/check flows and the admission scheduler, with theorems
settling the specification's claims.

Modelling conventions:
* a Rust `String`/`&str` is a `List Char` (`RStr`);
* a Rust `PathBuf` is its list of components (`RPath`); `PathBuf` equality
  and hashing in Rust compare components, which the list equality mirrors;
* `HashMap<PathBuf, u128>` is an association list where an insert prepends
  and a lookup takes the first hit, so a later insert overwrites an earlier
  one exactly as `HashMap::insert` does;
* `u128` values are `Nat`s; the places where the source is bounded by the
  machine width (`u128::from_str_radix` overflow) carry an explicit
  `< 2 ^ 128` check;
* fallible code returns `Option`/`Except`; a `panic!`/`unwrap` failure and a
  process `exit` are explicit constructors of result types.
-/

set_option maxRecDepth 4000

namespace XXHV

/-- Characters of a Rust string. -/
abbrev RStr := List Char

/-- A filesystem path as its list of components (Rust `PathBuf`). -/
abbrev RPath := List RStr

/-- The `HashMap<PathBuf, u128>` of the source as an association list:
`hmInsert` prepends, `hmFind` takes the first hit, so later inserts
overwrite earlier ones. -/
abbrev HM := List (RPath × Nat)

/-- Lookup in the modelled hash map (first hit wins, i.e. latest insert). -/
def hmFind (m : HM) (k : RPath) : Option Nat :=
  (m.find? (fun e => e.1 == k)).map (fun e => e.2)

/-- Insert into the modelled hash map (prepend, overwriting on lookup). -/
def hmInsert (k : RPath) (v : Nat) (m : HM) : HM := (k, v) :: m

/-! ### String primitives used by the codec -/

/-- The character class trimmed by `line.trim_matches(|c| c == '[' || c == ']' || c == ' ')`
in `read_hash_file` (src/src/lib.rs:83). -/
def isTrimChar (c : Char) : Bool := c = '[' || c = ']' || c = ' '

/-- Rust `str::trim_matches`: strip the matching characters from both ends. -/
def trimBrackets (l : RStr) : RStr :=
  ((l.dropWhile isTrimChar).reverse.dropWhile isTrimChar).reverse

/-- Rust `str::split(" | ")` (src/src/lib.rs:84): scan left to right, each
non-overlapping occurrence of the three-character separator starts a new
field. -/
def splitPipe : RStr → List RStr
  | [] => [[]]
  | [c] => [[c]]
  | [c1, c2] => [[c1, c2]]
  | c1 :: c2 :: c3 :: rest =>
    if c1 = ' ' ∧ c2 = '|' ∧ c3 = ' ' then [] :: splitPipe rest
    else (splitPipe (c2 :: c3 :: rest)).modifyHead (fun l => c1 :: l)

/-- Whether the string contains the three-character separator of `splitPipe`
anywhere (used to state when a path survives the codec round trip). -/
def hasSep : RStr → Bool
  | c1 :: c2 :: c3 :: rest =>
    if c1 = ' ' ∧ c2 = '|' ∧ c3 = ' ' then true else hasSep (c2 :: c3 :: rest)
  | _ => false

/-- Split on the newline character (the raw part of `BufRead::lines`). -/
def splitNl : RStr → List RStr
  | [] => [[]]
  | c :: rest =>
    if c = '\n' then [] :: splitNl rest
    else (splitNl rest).modifyHead (fun l => c :: l)

/-- Strip one trailing carriage return, as `BufRead::lines` does per line. -/
def stripCR (l : RStr) : RStr :=
  if l.getLast? = some '\r' then l.dropLast else l

/-- Rust `BufRead::lines` over the whole file content: split on newlines,
strip one trailing `\r` from every newline-terminated piece, and do not
yield the final piece when it is empty (the fragment after a trailing
newline, or the whole of an empty file). -/
def rustLines (s : RStr) : List RStr :=
  let ps := splitNl s
  (ps.dropLast.map stripCR) ++
    (if ps.getLast? = some [] then [] else [(ps.getLast?).getD []])

/-- Split on the path separator `/` (how the components of a string pushed
onto a `PathBuf` are recovered). -/
def splitSlash : RStr → List RStr
  | [] => [[]]
  | c :: rest =>
    if c = '/' then [] :: splitSlash rest
    else (splitSlash rest).modifyHead (fun l => c :: l)

/-! ### Hexadecimal encoding and parsing -/

/-- The digit characters produced by Rust's `{:x}` formatting (lowercase). -/
def hexDigitChar (n : Nat) : Char :=
  if n < 10 then Char.ofNat (48 + n) else Char.ofNat (87 + n)

/-- Fuelled most-significant-first hex digit emitter; `toHex` supplies enough
fuel, and the fuelled shape keeps the definition structurally recursive. -/
def toHexAux : Nat → Nat → RStr → RStr
  | 0, _, acc => acc
  | fuel + 1, n, acc =>
    if n = 0 then acc else toHexAux fuel (n / 16) (hexDigitChar (n % 16) :: acc)

/-- Rust `{:x}` formatting of an unsigned value: lowercase hexadecimal with no
width padding, `"0"` for zero. -/
def toHex (n : Nat) : RStr := if n = 0 then ['0'] else toHexAux n n []

/-- The value of one hexadecimal digit character, as accepted by
`u128::from_str_radix(_, 16)` (both letter cases). -/
def hexVal (c : Char) : Option Nat :=
  if '0' ≤ c ∧ c ≤ '9' then some (c.toNat - 48)
  else if 'a' ≤ c ∧ c ≤ 'f' then some (c.toNat - 87)
  else if 'A' ≤ c ∧ c ≤ 'F' then some (c.toNat - 55)
  else none

/-- Accumulate hexadecimal digits left to right starting from `a`. -/
def parseFold (a : Option Nat) (l : RStr) : Option Nat :=
  l.foldl
    (fun acc c =>
      match acc, hexVal c with
      | some x, some d => some (x * 16 + d)
      | _, _ => none)
    a

/-- Rust `u128::from_str_radix(s, 16)` as used at src/src/lib.rs:89: skip one
leading `+`, require at least one digit, fail on any non-digit, and fail on
overflow. The source's per-step checked arithmetic fails exactly when the
mathematical value reaches `2 ^ 128`, since the accumulator is monotone. -/
def fromStrRadix16 (s : RStr) : Option Nat :=
  let digits := if s.head? = some '+' then s.tail else s
  if digits.isEmpty then none
  else
    match parseFold (some 0) digits with
    | some v => if v < 2 ^ 128 then some v else none
    | none => none

/-! ### Paths -/

/-- `Path::display` of a relative path: components joined by `/`. -/
def displayPath : RPath → RStr
  | [] => []
  | [c] => c
  | c :: c2 :: rest => c ++ '/' :: displayPath (c2 :: rest)

/-- The components denoted by a path string (empty fragments denote no
component, as in Rust's `Path::components`). -/
def parseComponents (s : RStr) : RPath :=
  (splitSlash s).filter (fun c => !c.isEmpty)

/-- `PathBuf::push` of a string onto a base path: an absolute argument
replaces the base, otherwise its components are appended
(src/src/lib.rs:87-88). -/
def pushPath (folder : RPath) (s : RStr) : RPath :=
  if s.head? = some '/' then parseComponents s else folder ++ parseComponents s

/-- The suffix of `p` once the root `folder` is stripped
(`Path::strip_prefix` succeeds exactly when `folder` is a component-wise
prefix of `p`, and then returns this suffix). -/
def dropRoot (folder p : RPath) : RPath := p.drop folder.length

/-! ### Filesystem and the hash engine (src/src/lib.rs:24-38) -/

/-- What opening and reading a path can yield: its full byte contents, a
not-found failure, or another I/O failure. -/
inductive FsFile where
  | contents (bytes : List Nat)
  | absent
  | ioErr
deriving DecidableEq

/-- A filesystem snapshot: what each path would yield when opened and read. -/
abbrev FS := RPath → FsFile

/-- The error kinds `compute_hash` can surface, as distinguished by the
callers (`ErrorKind::NotFound` versus everything else). -/
inductive IOErrKind where
  | notFound
  | otherErr
deriving DecidableEq

/-- Modelled from the spec: the `xxhash_rust::xxh3::Xxh3` streaming hasher is
an external crate, not part of this repository. Per the spec (section 4.1)
its state accumulates the fed byte sequence, and feeding chunks in order is
equivalent to feeding their concatenation. `update` is therefore
concatenation onto the accumulated sequence. -/
def xxh3update (st : List Nat) (chunk : List Nat) : List Nat := st ++ chunk

/-- Modelled from the spec: `Xxh3::digest128` finalizes the accumulated byte
sequence through a fixed 128-bit function. The spec constrains the digest
only to be a deterministic 128-bit value of the byte sequence alone, so a
concrete executable mixing function stands in for the external XXH3-128
algorithm. -/
def xxh3digest128 (st : List Nat) : Nat :=
  st.foldl (fun a b => (a * 257 + b + 1) % 2 ^ 128) 0

/-- The read loop of `compute_hash` (src/src/lib.rs:29-35): repeatedly read
the next chunk of at most 32768 bytes and feed it to the hasher until the
reader is exhausted. Fuelled to stay structurally recursive; one byte is
consumed per round at minimum, so `length + 1` fuel always suffices. -/
def readChunksAux : Nat → List Nat → List Nat → List Nat
  | 0, _, st => st
  | fuel + 1, rem, st =>
    if rem.isEmpty then st
    else readChunksAux fuel (rem.drop 32768) (xxh3update st (rem.take 32768))

/-- `compute_hash` (src/src/lib.rs:24-38): open the file, stream its bytes in
32768-byte chunks through the incremental hasher, return the finalized
128-bit digest; an open/read failure propagates as the I/O error kind. -/
def computeHash (fs : FS) (p : RPath) : Except IOErrKind Nat :=
  match fs p with
  | FsFile.contents bytes =>
    Except.ok (xxh3digest128 (readChunksAux (bytes.length + 1) bytes []))
  | FsFile.absent => Except.error IOErrKind.notFound
  | FsFile.ioErr => Except.error IOErrKind.otherErr

/-! ### Manifest encoding: `export_all_hash` (src/src/lib.rs:40-70) -/

/-- How a call to `export_all_hash` can end: normally, by returning the
digest-missing hard error for a path, or by panicking on the
`strip_prefix(..).unwrap()` of a path that is not under the root. -/
inductive ExpRes where
  | ok
  | noDigest (p : RPath)
  | panicked (p : RPath)
deriving DecidableEq

/-- The observable result of `export_all_hash`: the bytes written to the
(created-and-truncated) output file so far, and how the call ended. -/
structure ExportState where
  content : RStr
  res : ExpRes
deriving DecidableEq

/-- The writing loop of `export_all_hash` (src/src/lib.rs:52-68): for each
path in order, look its digest up (a miss aborts with the hard error),
strip the root (a failure panics via `unwrap`), and append one line
`[<relative path> | <lowercase hex digest>]` to the file. -/
def exportLoop (hashes : HM) (folder : RPath) : List RPath → RStr → ExportState
  | [], acc => ⟨acc, ExpRes.ok⟩
  | p :: rest, acc =>
    match hmFind hashes p with
    | none => ⟨acc, ExpRes.noDigest p⟩
    | some h =>
      if folder.isPrefixOf p then
        exportLoop hashes folder rest
          (acc ++ ('[' :: (displayPath (dropRoot folder p) ++
            [' ', '|', ' '] ++ toHex h ++ [']', '\n'])))
      else ⟨acc, ExpRes.panicked p⟩

/-- `export_all_hash` (src/src/lib.rs:40-70): the output file is
created-and-truncated before the iteration begins (so the written prefix
persists even when the loop aborts), then the loop writes one line per
listed path. -/
def exportAllHash (hashes : HM) (paths : List RPath) (folder : RPath) :
    ExportState :=
  exportLoop hashes folder paths []

/-- The single manifest line (without its newline) that `export_all_hash`
writes for `p`: `[<root-stripped path> | <hex digest>]`. -/
def entryLine (hashes : HM) (folder : RPath) (p : RPath) : RStr :=
  ('[' :: (displayPath (dropRoot folder p) ++ [' ', '|', ' '] ++
    toHex ((hmFind hashes p).getD 0))) ++ [']']

/-! ### Manifest decoding: `read_hash_file` (src/src/lib.rs:72-102) -/

/-- What one manifest line contributes in `read_hash_file`: nothing when it
does not split into exactly two fields, an entry when the digest parses,
and the hard parse error naming the offending token otherwise. -/
inductive LineRes where
  | skip
  | entry (k : RPath) (v : Nat)
  | badTok (t : RStr)
deriving DecidableEq

/-- One iteration of the decode loop (src/src/lib.rs:81-99): trim the
bracket and space characters from both ends, split on `" | "`, require
exactly two fields, rebuild the absolute key by pushing the first field
onto the root, and parse the second field as hexadecimal. -/
def decodeLine (folder : RPath) (l : RStr) : LineRes :=
  match splitPipe (trimBrackets l) with
  | [a, b] =>
    match fromStrRadix16 b with
    | some v => LineRes.entry (pushPath folder a) v
    | none => LineRes.badTok b
  | _ => LineRes.skip

/-- The decode loop over the file's lines, threading the map being built; a
parse error aborts the whole call with the offending token. -/
def readLines (folder : RPath) : List RStr → HM → Except RStr HM
  | [], m => Except.ok m
  | l :: rest, m =>
    match decodeLine folder l with
    | LineRes.skip => readLines folder rest m
    | LineRes.entry k v => readLines folder rest (hmInsert k v m)
    | LineRes.badTok t => Except.error t

/-- `read_hash_file` (src/src/lib.rs:72-102) on a manifest's text. -/
def readHashFile (folder : RPath) (content : RStr) : Except RStr HM :=
  readLines folder (rustLines content) []

/-- The (key, value) entries the decode loop inserts, in line order
(meaningful when no line aborts the decode). -/
def decodedEntries (folder : RPath) (lines : List RStr) : List (RPath × Nat) :=
  lines.filterMap (fun l =>
    match decodeLine folder l with
    | LineRes.entry k v => some (k, v)
    | _ => none)

/-- Whether a line cannot abort the decode (it is either skipped or a
well-formed entry). -/
def lineOKb (folder : RPath) (l : RStr) : Bool :=
  match decodeLine folder l with
  | LineRes.badTok _ => false
  | _ => true

/-! ### The check flow: `model_check` (src/src/main.rs:131-172) -/

/-- The per-file verification outcome of the spec. -/
inductive Outcome where
  | success
  | mismatch
  | missing
  | ioFailure
deriving DecidableEq

/-- One verification unit (src/src/main.rs:145-168): recompute the digest
and compare. The second component is `some code` when the unit terminates
the whole process with that exit status, `none` when the run continues. -/
def checkUnit (fs : FS) (p : RPath) (recorded : Nat) : Outcome × Option Nat :=
  match computeHash fs p with
  | Except.ok hnew =>
    if recorded = hnew then (Outcome.success, none) else (Outcome.mismatch, some 0)
  | Except.error IOErrKind.notFound => (Outcome.missing, some 0)
  | Except.error IOErrKind.otherErr => (Outcome.ioFailure, some 1)

/-- The check run over the decoded entries: outcomes observed in order, and
the process exit status; the first unit that calls `exit` abandons the
remaining entries, a completed run exits 0. -/
def runCheck (fs : FS) : List (RPath × Nat) → List Outcome × Nat
  | [] => ([], 0)
  | (p, recorded) :: rest =>
    match checkUnit fs p recorded with
    | (o, some c) => ([o], c)
    | (o, none) =>
      let r := runCheck fs rest
      (o :: r.1, r.2)

/-- `model_check` (src/src/main.rs:131-172): read the manifest (a read error
exits with status 1 before any verification unit is spawned), then run one
verification unit per decoded entry. -/
def modelCheck (fs : FS) (folder : RPath) (content : RStr) :
    List Outcome × Nat :=
  match readHashFile folder content with
  | Except.error _ => ([], 1)
  | Except.ok m => runCheck fs m

/-! ### The admission scheduler (src/src/main.rs:28, 112-120, 145-147, 187-189)

The scheduler's state counts the spawned units that have not yet acquired
the admission token (`pending`), the units holding a token while hashing
(`active`), and the finished units. The guard of `acquire` is the contract
of `tokio::sync::Semaphore::new(16)` (an external crate, specified in the
spec's section 4.2): at most 16 permits are ever outstanding. Each task of
`model_generate`/`model_check` acquires its permit before the
`compute_hash` call and drops it after, so a unit only hashes in the
`active` count. -/

/-- Scheduler state: spawned-but-waiting, admitted-and-hashing, and finished
unit counts. -/
structure Sched where
  pending : Nat
  active : Nat
  done : Nat
deriving DecidableEq

/-- The scheduler's transitions: spawning is never rate-limited, a waiting
unit is admitted only while fewer than `K` permits are out, and a release
always succeeds. -/
inductive SchedStep (K : Nat) : Sched → Sched → Prop
  | spawn (p a d : Nat) : SchedStep K ⟨p, a, d⟩ ⟨p + 1, a, d⟩
  | acquire (p a d : Nat) : a < K → SchedStep K ⟨p + 1, a, d⟩ ⟨p, a + 1, d⟩
  | release (p a d : Nat) : SchedStep K ⟨p, a + 1, d⟩ ⟨p, a, d + 1⟩

/-- The states a run can reach from the idle initial state. -/
def SchedReach (K : Nat) (s : Sched) : Prop :=
  Relation.ReflTransGen (SchedStep K) ⟨0, 0, 0⟩ s

/-! ### Definitions used to state the claims -/

/-- The sixteen digit characters Rust's `{:x}` formatting can emit. -/
def lowerHexChars : RStr := (List.range 16).map hexDigitChar

/-- A path component as produced by a directory walk: nonempty and free of
the path separator; we additionally require it free of the newline
character, which the on-disk line format cannot carry. -/
def goodComp (c : RStr) : Bool :=
  !c.isEmpty && c.all (fun ch => ch != '/' && ch != '\n')

/-- The displayed relative path survives the trimming and splitting of
`read_hash_file`: its first character is not one of the trimmed ones, and
no occurrence of the field separator appears in it, not even one
straddling into the separator that follows it on the line. -/
def cleanDisp (d : RStr) : Bool :=
  (match d.head? with
   | some c => !isTrimChar c
   | none => false) && !hasSep (d ++ [' ', '|'])

/-- A listed path whose manifest line the codec round trip preserves:
strictly under the root, with walk-like components and a clean display. -/
def goodPath (folder p : RPath) : Bool :=
  folder.isPrefixOf p && !(dropRoot folder p).isEmpty &&
    (dropRoot folder p).all goodComp &&
    cleanDisp (displayPath (dropRoot folder p))

/-- The literal reading of claim C1: encoding the manifest and decoding the
resulting text over the same root reproduces the recorded mapping. -/
def roundTripOK (hashes : HM) (paths : List RPath) (folder : RPath) : Prop :=
  ∃ m, readHashFile folder (exportAllHash hashes paths folder).content =
    Except.ok m ∧ ∀ p ∈ paths, hmFind m p = hmFind hashes p

/-- The literal reading of claim C4's one-line-per-file property: the
exported manifest has exactly one line per discovered file. -/
def claimC4At (cache : HM) (paths : List RPath) (folder : RPath) : Prop :=
  (rustLines (exportAllHash cache paths folder).content).length = paths.length

/-- The literal reading of claim C10: whenever some listed path with an
available digest is not under the root, the export call panics. -/
def claimC10At (hashes : HM) (paths : List RPath) (folder : RPath) : Prop :=
  (∃ p ∈ paths, (hmFind hashes p).isSome ∧ folder.isPrefixOf p = false) →
    ∃ q, (exportAllHash hashes paths folder).res = ExpRes.panicked q

/-! ## The admission bound (claim C8) -/

/-- C8: with the pool size 16 of `Semaphore::new(16)` (src/src/main.rs:28), no
reachable scheduler state has more than 16 units simultaneously admitted
(holding a permit while touching the filesystem and hashing), while any
number of pending units can be spawned and registered immediately. -/
theorem sched_admitted_bound :
    (∀ s : Sched, SchedReach 16 s → s.active ≤ 16) ∧
    (∀ n : Nat, SchedReach 16 ⟨n, 0, 0⟩) := by
  constructor
  · intro s h
    induction h with
    | refl => simp
    | tail _ step ih =>
      cases step with
      | spawn p a d => exact ih
      | acquire p a d hlt => exact hlt
      | release p a d => simp only at ih ⊢; omega
  · intro n
    induction n with
    | zero => exact Relation.ReflTransGen.refl
    | succ k ih => exact Relation.ReflTransGen.tail ih (SchedStep.spawn k 0 0)

/-- Witness for C8: a concrete reachable state respects the bound. -/
theorem sched_admitted_bound_wit : (Sched.mk 5 0 0).active ≤ 16 :=
  sched_admitted_bound.1 ⟨5, 0, 0⟩ (sched_admitted_bound.2 5)

/-! ## Check-mode classification and fail-fast behavior (claim C2) -/

/-- C2: each verification unit classifies its entry in the source's priority
order — a not-found recompute is Missing, any other I/O failure is
IOFailure, an equal digest is Success, a differing digest is Mismatch —
and the first Mismatch, Missing or IOFailure terminates the whole run at
once (remaining entries are abandoned), with exit status 0 for Mismatch
and Missing and 1 for IOFailure, while Success lets the run continue. -/
theorem check_priority_and_fail_fast (fs : FS) (p : RPath) (recorded : Nat)
    (rest : List (RPath × Nat)) :
    (computeHash fs p = Except.error IOErrKind.notFound →
      checkUnit fs p recorded = (Outcome.missing, some 0)) ∧
    (computeHash fs p = Except.error IOErrKind.otherErr →
      checkUnit fs p recorded = (Outcome.ioFailure, some 1)) ∧
    (∀ h, computeHash fs p = Except.ok h → recorded = h →
      checkUnit fs p recorded = (Outcome.success, none)) ∧
    (∀ h, computeHash fs p = Except.ok h → recorded ≠ h →
      checkUnit fs p recorded = (Outcome.mismatch, some 0)) ∧
    (∀ o c, checkUnit fs p recorded = (o, some c) →
      runCheck fs ((p, recorded) :: rest) = ([o], c)) ∧
    (∀ o, checkUnit fs p recorded = (o, none) →
      runCheck fs ((p, recorded) :: rest) =
        (o :: (runCheck fs rest).1, (runCheck fs rest).2)) := by
  refine ⟨?_, ?_, ?_, ?_, ?_, ?_⟩
  · intro h; simp [checkUnit, h]
  · intro h; simp [checkUnit, h]
  · intro hv h he; simp [checkUnit, h, he]
  · intro hv h hne; simp [checkUnit, h, hne]
  · intro o c h; simp [runCheck, h]
  · intro o h; simp [runCheck, h]

/-- Witness for C2: a concrete mismatching entry is classified Mismatch and
stops the run with exit status 0, abandoning the rest of the manifest. -/
theorem check_priority_and_fail_fast_wit :
    checkUnit (fun _ => FsFile.contents [0]) [['a']] 2 = (Outcome.mismatch, some 0) ∧
    runCheck (fun _ => FsFile.contents [0]) [([['a']], 2), ([['b']], 1)] =
      ([Outcome.mismatch], 0) := by
  have h := check_priority_and_fail_fast (fun _ => FsFile.contents [0]) [['a']] 2
    [([['b']], 1)]
  have hm := h.2.2.2.1 1 rfl (by decide)
  exact ⟨hm, h.2.2.2.2.1 Outcome.mismatch 0 hm⟩

/-! ## The hash engine (claim C3) -/

/-- The chunked read loop feeds exactly the file's byte sequence, in order,
to the hasher: with enough fuel it accumulates `st ++ rem`. -/
lemma readChunksAux_eq (fuel : Nat) :
    ∀ (rem st : List Nat), rem.length < fuel →
      readChunksAux fuel rem st = st ++ rem := by
  induction fuel with
  | zero => intro rem st h; omega
  | succ f ih =>
    intro rem st h
    by_cases he : rem.isEmpty
    · rw [readChunksAux, if_pos he]
      rw [List.isEmpty_iff.mp he, List.append_nil]
    · rw [readChunksAux, if_neg he]
      have hlen : rem.length ≠ 0 := by
        intro h0; exact he (List.isEmpty_iff.mpr (List.length_eq_zero.mp h0))
      rw [ih _ _ (by rw [List.length_drop]; omega)]
      rw [xxh3update, List.append_assoc, List.take_append_drop]

/-- C3: `compute_hash` streams the contents in 32768-byte chunks through the
incremental hasher and its digest is a function of the byte sequence
alone — two calls over any two filesystems and paths holding identical
bytes give identical digests, equal to the finalized hash of the whole
sequence, with no dependency on the path or any metadata. -/
theorem compute_hash_content_only (fs₁ fs₂ : FS) (p₁ p₂ : RPath)
    (b : List Nat) (h₁ : fs₁ p₁ = FsFile.contents b)
    (h₂ : fs₂ p₂ = FsFile.contents b) :
    computeHash fs₁ p₁ = Except.ok (xxh3digest128 b) ∧
    computeHash fs₁ p₁ = computeHash fs₂ p₂ := by
  have key : ∀ (fs : FS) (p : RPath), fs p = FsFile.contents b →
      computeHash fs p = Except.ok (xxh3digest128 b) := by
    intro fs p h
    simp only [computeHash, h]
    rw [readChunksAux_eq (b.length + 1) b [] (by omega), List.nil_append]
  exact ⟨key fs₁ p₁ h₁, by rw [key fs₁ p₁ h₁, key fs₂ p₂ h₂]⟩

/-- Witness for C3: two different snapshots and paths with the same bytes
yield the same digest. -/
theorem compute_hash_content_only_wit :
    computeHash (fun _ => FsFile.contents [7, 8]) [['a']] =
      Except.ok (xxh3digest128 [7, 8]) ∧
    computeHash (fun _ => FsFile.contents [7, 8]) [['a']] =
      computeHash
        (fun q => if q == [['z']] then FsFile.contents [7, 8] else FsFile.absent)
        [['z']] :=
  compute_hash_content_only _ _ [['a']] [['z']] [7, 8] rfl rfl

/-! ## Decode-loop lemmas (claims C5, C6, C9) -/

/-- A line that does not split into exactly two fields decodes to a skip. -/
lemma decodeLine_skip_of_len (folder : RPath) (l : RStr)
    (h : (splitPipe (trimBrackets l)).length ≠ 2) :
    decodeLine folder l = LineRes.skip := by
  rcases hs : splitPipe (trimBrackets l) with _ | ⟨a, _ | ⟨b, _ | ⟨c, t⟩⟩⟩
  · simp [decodeLine, hs]
  · simp [decodeLine, hs]
  · exact absurd (by simp [hs]) h
  · simp [decodeLine, hs]

/-- Inversion of the parse-error case of `decodeLine`. -/
lemma decodeLine_badTok_inv (folder : RPath) (l : RStr) (t : RStr)
    (h : decodeLine folder l = LineRes.badTok t) :
    ∃ a, splitPipe (trimBrackets l) = [a, t] ∧ fromStrRadix16 t = none := by
  rcases hs : splitPipe (trimBrackets l) with _ | ⟨a, _ | ⟨b, _ | ⟨c, r⟩⟩⟩ <;>
    simp only [decodeLine, hs] at h
  · cases h
  · cases h
  · rcases hp : fromStrRadix16 b with _ | v <;> simp only [hp] at h
    · cases h
      exact ⟨a, rfl, hp⟩
    · cases h
  · cases h

/-- Introduction of the parse-error case of `decodeLine`. -/
lemma decodeLine_badTok_of (folder : RPath) (l : RStr) (a t : RStr)
    (hs : splitPipe (trimBrackets l) = [a, t]) (hp : fromStrRadix16 t = none) :
    decodeLine folder l = LineRes.badTok t := by
  simp only [decodeLine, hs, hp]

/-- When every line is skippable or well formed, the decode loop succeeds and
builds exactly the map of the decoded entries, inserted in line order onto
the accumulator (`hmInsert` prepends, hence the reversal). -/
lemma readLines_ok (folder : RPath) :
    ∀ (lines : List RStr) (m : HM),
      (∀ l ∈ lines, lineOKb folder l = true) →
      readLines folder lines m =
        Except.ok ((decodedEntries folder lines).reverse ++ m) := by
  intro lines
  induction lines with
  | nil => intro m _; simp [readLines, decodedEntries]
  | cons l rest ih =>
    intro m hok
    have hl := hok l (List.mem_cons_self l rest)
    have hrest : ∀ x ∈ rest, lineOKb folder x = true :=
      fun x hx => hok x (List.mem_cons_of_mem _ hx)
    cases hd : decodeLine folder l with
    | skip =>
      simp only [readLines, hd]
      rw [ih m hrest]
      simp [decodedEntries, hd]
    | entry k v =>
      simp only [readLines, hd]
      rw [ih (hmInsert k v m) hrest]
      simp [decodedEntries, hd, hmInsert]
    | badTok t =>
      simp only [lineOKb, hd] at hl
      exact Bool.noConfusion hl

/-- C6: a manifest line that does not split into exactly two fields after
trimming is silently skipped by the decode loop: no error is raised on its
account and it contributes no entry — decoding with the line present gives
the same result as decoding with it removed. -/
theorem malformed_line_skipped (folder : RPath) (pre post : List RStr)
    (bad : RStr) (m : HM)
    (h : (splitPipe (trimBrackets bad)).length ≠ 2) :
    readLines folder (pre ++ bad :: post) m = readLines folder (pre ++ post) m := by
  induction pre generalizing m with
  | nil =>
    rw [List.nil_append, List.nil_append, readLines,
      decodeLine_skip_of_len folder bad h]
  | cons l pre' ih =>
    rw [List.cons_append, List.cons_append]
    cases hd : decodeLine folder l with
    | skip => simp only [readLines, hd]; exact ih m
    | entry k v => simp only [readLines, hd]; exact ih (hmInsert k v m)
    | badTok t => simp only [readLines, hd]

/-- Witness for C6: a concrete malformed line (three fields) contributes
nothing to the decoded map. -/
theorem malformed_line_skipped_wit :
    readLines [['r']]
      [('[' :: 'a' :: ' ' :: '|' :: ' ' :: '1' :: ']' :: []),
       ('[' :: 'a' :: ' ' :: '|' :: ' ' :: 'b' :: ' ' :: '|' :: ' ' :: '1' :: ']' :: []),
       ('[' :: 'c' :: ' ' :: '|' :: ' ' :: '2' :: ']' :: [])] [] =
    readLines [['r']]
      [('[' :: 'a' :: ' ' :: '|' :: ' ' :: '1' :: ']' :: []),
       ('[' :: 'c' :: ' ' :: '|' :: ' ' :: '2' :: ']' :: [])] [] :=
  malformed_line_skipped [['r']]
    [('[' :: 'a' :: ' ' :: '|' :: ' ' :: '1' :: ']' :: [])]
    [('[' :: 'c' :: ' ' :: '|' :: ' ' :: '2' :: ']' :: [])]
    ('[' :: 'a' :: ' ' :: '|' :: ' ' :: 'b' :: ' ' :: '|' :: ' ' :: '1' :: ']' :: [])
    [] (by decide)

/-- Lookup distributes over an association-list append as a left-biased
choice. -/
lemma hmFind_append (m₁ m₂ : HM) (q : RPath) :
    hmFind (m₁ ++ m₂) q = (hmFind m₁ q).orElse (fun _ => hmFind m₂ q) := by
  induction m₁ with
  | nil => simp [hmFind]
  | cons e m' ih =>
    by_cases h : e.1 == q
    · simp [hmFind, List.find?_cons_of_pos, h]
    · rw [List.cons_append]
      rw [show hmFind (e :: (m' ++ m₂)) q = hmFind (m' ++ m₂) q by
        simp [hmFind, List.find?_cons_of_neg, h]]
      rw [show hmFind (e :: m') q = hmFind m' q by
        simp [hmFind, List.find?_cons_of_neg, h]]
      exact ih

/-- Lookup on a one-entry map. -/
lemma hmFind_single (k : RPath) (v : Nat) (q : RPath) :
    hmFind [(k, v)] q = if k = q then some v else none := by
  by_cases h : k = q
  · simp [hmFind, List.find?_cons_of_pos, h]
  · have hb : (k == q) = false := beq_eq_false_iff_ne.mpr h
    simp [hmFind, List.find?, hb, h]

/-- A nonempty list has a last element. -/
lemma getLast?_cons_isSome {α : Type} (a : α) (l : List α) :
    ((a :: l).getLast?).isSome = true := by
  induction l generalizing a with
  | nil => rfl
  | cons b l' ih => rw [List.getLast?_cons_cons]; exact ih b

/-- First hit on the reversed list is the last matching entry of the
original list. -/
lemma hmFind_reverse_getLast (l : List (RPath × Nat)) (q : RPath) :
    hmFind l.reverse q =
      ((l.filter (fun e => e.1 == q)).getLast?).map (fun e => e.2) := by
  induction l with
  | nil => simp [hmFind]
  | cons e l' ih =>
    rw [List.reverse_cons, hmFind_append, ih, List.filter_cons]
    by_cases h : (e.1 == q) = true
    · rw [if_pos h]
      rcases hcons : l'.filter (fun x => x.1 == q) with _ | ⟨y, ys⟩
      · have h1 : hmFind [e] q = some e.2 := by simp [hmFind, List.find?, h]
        rw [hcons]
        simp [h1]
      · rw [hcons, List.getLast?_cons_cons]
        cases hx : (y :: ys).getLast? with
        | none =>
          have := getLast?_cons_isSome y ys
          rw [hx] at this
          cases this
        | some x => simp [hx]
    · rw [if_neg h]
      have h1 : hmFind [e] q = none := by simp [hmFind, List.find?, h]
      cases hf : (l'.filter (fun x => x.1 == q)).getLast? with
      | none => simp [hf, h1]
      | some v => simp [hf]

/-- C9: when the decoded manifest has several lines whose first field
reconstructs to the same absolute path, no duplicate-detection error is
raised and the resulting mapping holds, for every key, the digest of the
last line that inserted it — later duplicates overwrite earlier ones. -/
theorem dup_keys_last_wins (folder : RPath) (lines : List RStr)
    (hok : ∀ l ∈ lines, lineOKb folder l = true) :
    ∃ m, readLines folder lines [] = Except.ok m ∧
      ∀ q, hmFind m q =
        (((decodedEntries folder lines).filter (fun e => e.1 == q)).getLast?).map
          (fun e => e.2) := by
  refine ⟨(decodedEntries folder lines).reverse, ?_, ?_⟩
  · rw [readLines_ok folder lines [] hok, List.append_nil]
  · intro q
    exact hmFind_reverse_getLast _ q

/-- Witness for C9: two entries for the same path decode without error and
the mapping keeps the later digest 2, not the earlier 1. -/
theorem dup_keys_last_wins_wit :
    ∃ m, readLines [['r']]
        [('[' :: 'a' :: ' ' :: '|' :: ' ' :: '1' :: ']' :: []),
         ('[' :: 'a' :: ' ' :: '|' :: ' ' :: '2' :: ']' :: [])] [] =
      Except.ok m ∧
      ∀ q, hmFind m q =
        (((decodedEntries [['r']]
          [('[' :: 'a' :: ' ' :: '|' :: ' ' :: '1' :: ']' :: []),
           ('[' :: 'a' :: ' ' :: '|' :: ' ' :: '2' :: ']' :: [])]).filter
            (fun e => e.1 == q)).getLast?).map (fun e => e.2) :=
  dup_keys_last_wins [['r']] _ (by decide)

/-- An aborting parse error exists as soon as some line has exactly two
fields with an unparseable second field, and the reported token is the
second field of such a line. -/
lemma readLines_error_of_bad (folder : RPath) :
    ∀ (lines : List RStr) (m : HM),
      (∃ l ∈ lines, ∃ t a,
        splitPipe (trimBrackets l) = [a, t] ∧ fromStrRadix16 t = none) →
      ∃ t, readLines folder lines m = Except.error t ∧
        ∃ l ∈ lines, ∃ a,
          splitPipe (trimBrackets l) = [a, t] ∧ fromStrRadix16 t = none := by
  intro lines
  induction lines with
  | nil =>
    rintro m ⟨l, hl, -⟩
    cases hl
  | cons l rest ih =>
    rintro m ⟨l', hl', t', a', hsp', hpa'⟩
    cases hd : decodeLine folder l with
    | badTok t =>
      obtain ⟨a, hsp, hpa⟩ := decodeLine_badTok_inv folder l t hd
      exact ⟨t, by simp only [readLines, hd], l, List.mem_cons_self l rest,
        a, hsp, hpa⟩
    | skip =>
      have hl'rest : l' ∈ rest := by
        rcases List.mem_cons.mp hl' with rfl | hmem
        · have := decodeLine_badTok_of folder l' a' t' hsp' hpa'
          rw [hd] at this
          exact LineRes.noConfusion this
        · exact hmem
      obtain ⟨t, hrl, lw, h1, a, h2, h3⟩ :=
        ih m ⟨l', hl'rest, t', a', hsp', hpa'⟩
      exact ⟨t, by simp only [readLines, hd]; exact hrl, lw,
        List.mem_cons_of_mem _ h1, a, h2, h3⟩
    | entry k v =>
      have hl'rest : l' ∈ rest := by
        rcases List.mem_cons.mp hl' with rfl | hmem
        · have := decodeLine_badTok_of folder l' a' t' hsp' hpa'
          rw [hd] at this
          exact LineRes.noConfusion this
        · exact hmem
      obtain ⟨t, hrl, lw, h1, a, h2, h3⟩ :=
        ih (hmInsert k v m) ⟨l', hl'rest, t', a', hsp', hpa'⟩
      exact ⟨t, by simp only [readLines, hd]; exact hrl, lw,
        List.mem_cons_of_mem _ h1, a, h2, h3⟩

/-- C5: a manifest text with a line that splits into exactly two fields
whose second field fails hexadecimal parsing makes the decode abort with
an error naming the offending token, and a check run against it exits
with status 1 having hashed no file: no verification unit runs at all. -/
theorem bad_hex_aborts (fs : FS) (folder : RPath) (content : RStr)
    (h : ∃ l ∈ rustLines content, ∃ t a,
      splitPipe (trimBrackets l) = [a, t] ∧ fromStrRadix16 t = none) :
    (∃ t, readHashFile folder content = Except.error t ∧
      ∃ l ∈ rustLines content, ∃ a,
        splitPipe (trimBrackets l) = [a, t] ∧ fromStrRadix16 t = none) ∧
    modelCheck fs folder content = ([], 1) := by
  obtain ⟨t, he, hw⟩ := readLines_error_of_bad folder (rustLines content) [] h
  have he' : readHashFile folder content = Except.error t := he
  refine ⟨⟨t, he', hw⟩, ?_⟩
  simp only [modelCheck, he']

/-- Witness for C5: the manifest `[a | zz]` aborts decoding with the token
`zz` and its check run exits 1 with no outcome observed. -/
theorem bad_hex_aborts_wit :
    (∃ t, readHashFile [['r']]
        ('[' :: 'a' :: ' ' :: '|' :: ' ' :: 'z' :: 'z' :: ']' :: '\n' :: []) =
        Except.error t ∧
      ∃ l ∈ rustLines
        ('[' :: 'a' :: ' ' :: '|' :: ' ' :: 'z' :: 'z' :: ']' :: '\n' :: []),
        ∃ a, splitPipe (trimBrackets l) = [a, t] ∧ fromStrRadix16 t = none) ∧
    modelCheck (fun _ => FsFile.absent) [['r']]
      ('[' :: 'a' :: ' ' :: '|' :: ' ' :: 'z' :: 'z' :: ']' :: '\n' :: []) =
      ([], 1) :=
  bad_hex_aborts (fun _ => FsFile.absent) [['r']] _
    ⟨('[' :: 'a' :: ' ' :: '|' :: ' ' :: 'z' :: 'z' :: ']' :: []), by decide,
      ['z', 'z'], ['a'], by decide, by decide⟩

/-! ## Export lemmas (claims C7, C10) -/

/-- While every path has a digest and lies under the root, the export loop
appends exactly one line per path, in order, and ends normally. -/
lemma exportLoop_ok (hashes : HM) (folder : RPath) :
    ∀ (paths : List RPath) (acc : RStr),
      (∀ p ∈ paths, (hmFind hashes p).isSome ∧ folder.isPrefixOf p = true) →
      exportLoop hashes folder paths acc =
        ⟨acc ++ (paths.map (fun p => entryLine hashes folder p ++ ['\n'])).flatten,
          ExpRes.ok⟩ := by
  intro paths
  induction paths with
  | nil => intro acc _; simp [exportLoop]
  | cons p rest ih =>
    intro acc hall
    obtain ⟨hs, hpre⟩ := hall p (List.mem_cons_self p rest)
    obtain ⟨h, hh⟩ := Option.isSome_iff_exists.mp hs
    simp only [exportLoop, hh, hpre, if_true]
    rw [ih _ (fun q hq => hall q (List.mem_cons_of_mem _ hq))]
    simp [entryLine, hh, List.append_assoc]

/-- The export loop aborts with the digest-missing error at the first listed
path without a digest, leaving exactly the previously written lines. -/
lemma exportLoop_noDigest (hashes : HM) (folder : RPath) (bad : RPath)
    (rest : List RPath) (hbad : hmFind hashes bad = none) :
    ∀ (good : List RPath) (acc : RStr),
      (∀ p ∈ good, (hmFind hashes p).isSome ∧ folder.isPrefixOf p = true) →
      exportLoop hashes folder (good ++ bad :: rest) acc =
        ⟨acc ++ (good.map (fun p => entryLine hashes folder p ++ ['\n'])).flatten,
          ExpRes.noDigest bad⟩ := by
  intro good
  induction good with
  | nil =>
    intro acc _
    simp only [List.nil_append, exportLoop, hbad]
    simp
  | cons p rest' ih =>
    intro acc hall
    obtain ⟨hs, hpre⟩ := hall p (List.mem_cons_self p rest')
    obtain ⟨h, hh⟩ := Option.isSome_iff_exists.mp hs
    rw [List.cons_append]
    simp only [exportLoop, hh, hpre, if_true]
    rw [ih _ (fun q hq => hall q (List.mem_cons_of_mem _ hq))]
    simp [entryLine, hh, List.append_assoc]

/-- C7: when the first path in the to-be-written list lacking a digest is
reached, `export_all_hash` aborts with the hard digest-missing error, and
because the output file was created-and-truncated before the iteration,
exactly the lines written for the preceding paths remain on disk as a
partially written manifest — the write is not atomic. -/
theorem export_partial_on_missing (hashes : HM) (folder : RPath)
    (good : List RPath) (bad : RPath) (rest : List RPath)
    (hgood : ∀ p ∈ good, (hmFind hashes p).isSome ∧ folder.isPrefixOf p = true)
    (hbad : hmFind hashes bad = none) :
    exportAllHash hashes (good ++ bad :: rest) folder =
      ⟨(good.map (fun p => entryLine hashes folder p ++ ['\n'])).flatten,
        ExpRes.noDigest bad⟩ := by
  rw [exportAllHash, exportLoop_noDigest hashes folder bad rest hbad good [] hgood]
  simp

/-- Witness for C7: with one good entry before a digest-less path, the
export aborts and leaves exactly the good entry's line behind. -/
theorem export_partial_on_missing_wit :
    exportAllHash [([['r'], ['a']], 259)] [[['r'], ['a']], [['r'], ['b']]] [['r']] =
      ⟨(([[['r'], ['a']]] : List RPath).map
          (fun p => entryLine [([['r'], ['a']], 259)] [['r']] p ++ ['\n'])).flatten,
        ExpRes.noDigest [['r'], ['b']]⟩ :=
  export_partial_on_missing [([['r'], ['a']], 259)] [['r']]
    [[['r'], ['a']]] [['r'], ['b']] [] (by decide) (by decide)

/-- Counterexample to C10 as stated: when a digest-less path precedes the
escaped digest-carrying path, the export returns the digest-missing error
instead of panicking. -/
theorem strip_panic_claim_cex :
    ¬ claimC10At [([['q']], 1)] [[['r'], ['m']], [['q']]] [['r']] := by
  intro h
  obtain ⟨q, hq⟩ := h ⟨[['q']], by decide, by decide, by decide⟩
  rw [show (exportAllHash [([['q']], 1)] [[['r'], ['m']], [['q']]] [['r']]).res =
      ExpRes.noDigest [['r'], ['m']] from rfl] at hq
  exact ExpRes.noConfusion hq

/-- C10 (amended): when every listed path has a digest available and some
listed path is not under the root, `export_all_hash` panics via the
`strip_prefix(..).unwrap()` at the first such path; so a caller must
ensure every listed path lies under the tree root for the export to
complete without panicking. -/
theorem strip_panics_on_escaped_path (hashes : HM) (folder : RPath)
    (paths : List RPath)
    (hdig : ∀ p ∈ paths, (hmFind hashes p).isSome)
    (hesc : ∃ p ∈ paths, folder.isPrefixOf p = false) :
    ∃ q ∈ paths, folder.isPrefixOf q = false ∧
      (exportAllHash hashes paths folder).res = ExpRes.panicked q := by
  rw [exportAllHash]
  suffices hgen : ∀ (ps : List RPath) (acc : RStr),
      (∀ p ∈ ps, (hmFind hashes p).isSome) →
      (∃ p ∈ ps, folder.isPrefixOf p = false) →
      ∃ q ∈ ps, folder.isPrefixOf q = false ∧
        (exportLoop hashes folder ps acc).res = ExpRes.panicked q by
    exact hgen paths [] hdig hesc
  intro ps
  induction ps with
  | nil =>
    rintro acc _ ⟨p, hp, -⟩
    cases hp
  | cons p rest ih =>
    rintro acc hd ⟨w, hw, hwesc⟩
    obtain ⟨h, hh⟩ := Option.isSome_iff_exists.mp (hd p (List.mem_cons_self p rest))
    by_cases hpre : folder.isPrefixOf p = true
    · have hwrest : w ∈ rest := by
        rcases List.mem_cons.mp hw with rfl | hmem
        · rw [hpre] at hwesc; cases hwesc
        · exact hmem
      obtain ⟨q, h1, h2, h3⟩ := ih _
        (fun x hx => hd x (List.mem_cons_of_mem _ hx)) ⟨w, hwrest, hwesc⟩
      refine ⟨q, List.mem_cons_of_mem _ h1, h2, ?_⟩
      simp only [exportLoop, hh, hpre, if_true]
      exact h3
    · have hpre' : folder.isPrefixOf p = false := by
        cases hb : folder.isPrefixOf p
        · rfl
        · exact absurd hb hpre
      refine ⟨p, List.mem_cons_self p rest, hpre', ?_⟩
      simp [exportLoop, hh, hpre']

/-- Witness for C10 (amended): a digest-carrying path outside the root
makes the export panic at that path. -/
theorem strip_panics_on_escaped_path_wit :
    ∃ q ∈ [[['r'], ['m']], [['q']]], ([['r']] : RPath).isPrefixOf q = false ∧
      (exportAllHash [([['q']], 1), ([['r'], ['m']], 2)]
        [[['r'], ['m']], [['q']]] [['r']]).res = ExpRes.panicked q :=
  strip_panics_on_escaped_path [([['q']], 1), ([['r'], ['m']], 2)] [['r']]
    [[['r'], ['m']], [['q']]] (by decide) ⟨[['q']], by decide, by decide⟩

/-! ## Line-structure lemmas for the encoded manifest -/

/-- Splitting on newlines ignores a newline-free prefix up to its own cell. -/
lemma splitNl_append_nl (l s : RStr) (h : '\n' ∉ l) :
    splitNl (l ++ '\n' :: s) = l :: splitNl s := by
  induction l with
  | nil => simp [splitNl]
  | cons c l' ih =>
    have hc : ¬c = '\n' := fun hh => h (hh ▸ List.mem_cons_self c l')
    have h' : '\n' ∉ l' := fun hh => h (List.mem_cons_of_mem _ hh)
    rw [List.cons_append, splitNl, if_neg hc, ih h']
    rfl

/-- Splitting the concatenation of newline-terminated, newline-free lines
recovers the lines plus one final empty fragment. -/
lemma splitNl_flatten (ls : List RStr) (h : ∀ l ∈ ls, '\n' ∉ l) :
    splitNl ((ls.map (fun l => l ++ ['\n'])).flatten) = ls ++ [[]] := by
  induction ls with
  | nil => simp [splitNl]
  | cons l ls' ih =>
    rw [List.map_cons, List.flatten_cons, List.append_assoc]
    rw [show (['\n'] ++ (ls'.map (fun l => l ++ ['\n'])).flatten) =
      '\n' :: (ls'.map (fun l => l ++ ['\n'])).flatten from rfl]
    rw [splitNl_append_nl _ _ (h l (List.mem_cons_self l ls'))]
    rw [ih (fun x hx => h x (List.mem_cons_of_mem _ hx))]
    rfl

/-- `BufRead::lines` over the concatenation of newline-terminated lines that
contain no newline and end in no carriage return is exactly the lines. -/
lemma rustLines_flatten (ls : List RStr)
    (h : ∀ l ∈ ls, '\n' ∉ l ∧ l.getLast? ≠ some '\r') :
    rustLines ((ls.map (fun l => l ++ ['\n'])).flatten) = ls := by
  simp only [rustLines]
  rw [splitNl_flatten ls (fun l hl => (h l hl).1)]
  rw [List.getLast?_concat, if_pos rfl, List.dropLast_concat, List.append_nil]
  have hmap : ∀ (xs : List RStr), (∀ l ∈ xs, l.getLast? ≠ some '\r') →
      xs.map stripCR = xs := by
    intro xs
    induction xs with
    | nil => intro _; rfl
    | cons a as ih =>
      intro hx
      rw [List.map_cons, ih (fun y hy => hx y (List.mem_cons_of_mem _ hy))]
      rw [stripCR, if_neg (hx a (List.mem_cons_self a as))]
  exact hmap ls (fun l hl => (h l hl).2)

/-! ## Hexadecimal round-trip lemmas -/

/-- Parsing inverts the digit-character encoding, digit by digit. -/
lemma hexVal_hexDigitChar (d : Nat) (h : d < 16) :
    hexVal (hexDigitChar d) = some d := by
  interval_cases d <;> decide

/-- Every emitted digit character is one of the sixteen lowercase ones. -/
lemma hexDigitChar_mem_lower (d : Nat) (h : d < 16) :
    hexDigitChar d ∈ lowerHexChars := by
  rw [lowerHexChars]
  exact List.mem_map.mpr ⟨d, List.mem_range.mpr h, rfl⟩

/-- The lowercase hexadecimal digit characters avoid every character that
the line format, the trimming and the splitting give meaning to. -/
lemma lowerHex_props (c : Char) (h : c ∈ lowerHexChars) :
    c ≠ ' ' ∧ c ≠ '\n' ∧ c ≠ '\r' ∧ c ≠ '+' ∧ c ≠ '|' ∧ c ≠ '/' ∧
      isTrimChar c = false := by
  rw [lowerHexChars] at h
  obtain ⟨d, hd, rfl⟩ := List.mem_map.mp h
  rw [List.mem_range] at hd
  interval_cases d <;> decide

/-- A digit character equal to `'0'` encodes the digit zero. -/
lemma hexDigitChar_eq_zero_char (d : Nat) (hlt : d < 16)
    (he : hexDigitChar d = '0') : d = 0 := by
  interval_cases d <;> revert he <;> decide

/-- The fuelled emitter writes exactly the base-16 digits of `n`, most
significant first, in front of the accumulator. -/
lemma toHexAux_digits :
    ∀ (fuel n : Nat), n ≤ fuel → ∀ (acc : RStr),
      toHexAux fuel n acc =
        ((Nat.digits 16 n).map hexDigitChar).reverse ++ acc := by
  intro fuel
  induction fuel with
  | zero =>
    intro n h acc
    interval_cases n
    simp [toHexAux]
  | succ f ih =>
    intro n h acc
    by_cases h0 : n = 0
    · subst h0; simp [toHexAux]
    · rw [toHexAux, if_neg h0]
      have hdiv : n / 16 ≤ f := by
        have : n / 16 < n := Nat.div_lt_self (Nat.pos_of_ne_zero h0) (by norm_num)
        omega
      rw [ih (n / 16) hdiv]
      rw [Nat.digits_def' (by norm_num : (1 : Nat) < 16) (Nat.pos_of_ne_zero h0)]
      simp [List.append_assoc]

/-- `{:x}` of a nonzero value is its base-16 digit string. -/
lemma toHex_eq_digits (n : Nat) (h : n ≠ 0) :
    toHex n = ((Nat.digits 16 n).map hexDigitChar).reverse := by
  rw [toHex, if_neg h, toHexAux_digits n n le_rfl []]
  simp

/-- Every character `{:x}` emits is a lowercase hexadecimal digit. -/
lemma toHex_chars (n : Nat) : ∀ c ∈ toHex n, c ∈ lowerHexChars := by
  by_cases h0 : n = 0
  · subst h0
    intro c hc
    rw [show toHex 0 = ['0'] from rfl, List.mem_singleton] at hc
    subst hc
    decide
  · rw [toHex_eq_digits n h0]
    intro c hc
    rw [List.mem_reverse] at hc
    obtain ⟨d, hd, rfl⟩ := List.mem_map.mp hc
    exact hexDigitChar_mem_lower d (Nat.digits_lt_base (by norm_num) hd)

/-- `{:x}` never emits the empty string. -/
lemma toHex_ne_nil (n : Nat) : toHex n ≠ [] := by
  by_cases h0 : n = 0
  · subst h0; decide
  · rw [toHex_eq_digits n h0]
    simp [(@Nat.digits_ne_nil_iff_ne_zero 16 n).mpr h0]

/-- `{:x}` pads with no leading zero: only the value zero starts with one. -/
lemma toHex_head_ne_zero (n : Nat) (h : n ≠ 0) :
    (toHex n).head? ≠ some '0' := by
  rw [toHex_eq_digits n h, List.head?_reverse, List.getLast?_map]
  have hne : Nat.digits 16 n ≠ [] := (@Nat.digits_ne_nil_iff_ne_zero 16 n).mpr h
  rw [List.getLast?_eq_getLast _ hne]
  intro hc
  rw [Option.map_some'] at hc
  have hchar := Option.some.inj hc
  have hlt : (Nat.digits 16 n).getLast hne < 16 :=
    Nat.digits_lt_base (by norm_num) (List.getLast_mem hne)
  exact Nat.getLast_digit_ne_zero 16 h (hexDigitChar_eq_zero_char _ hlt hchar)

/-- Folding the parse over a split of the digit string composes. -/
lemma parseFold_append (a : Option Nat) (l₁ l₂ : RStr) :
    parseFold a (l₁ ++ l₂) = parseFold (parseFold a l₁) l₂ := by
  simp [parseFold, List.foldl_append]

/-- Parsing the reversed digit-character list of a digit list accumulates
its value on top of the starting accumulator. -/
lemma parseFold_digits (ds : List Nat) (h : ∀ d ∈ ds, d < 16) (a : Nat) :
    parseFold (some a) ((ds.map hexDigitChar).reverse) =
      some (a * 16 ^ ds.length + Nat.ofDigits 16 ds) := by
  induction ds generalizing a with
  | nil => simp [parseFold, Nat.ofDigits_nil]
  | cons d ds' ih =>
    rw [List.map_cons, List.reverse_cons, parseFold_append]
    rw [ih (fun x hx => h x (List.mem_cons_of_mem _ hx))]
    have hd := hexVal_hexDigitChar d (h d (List.mem_cons_self d ds'))
    simp only [parseFold, List.foldl_cons, List.foldl_nil, hd, Nat.ofDigits_cons]
    rw [List.length_cons]
    ring_nf

/-- Decoding inverts encoding on digests below the `u128` bound: parsing
the `{:x}` rendering of `n < 2 ^ 128` gives back exactly `n`. -/
lemma fromStr_toHex (n : Nat) (h : n < 2 ^ 128) :
    fromStrRadix16 (toHex n) = some n := by
  by_cases h0 : n = 0
  · subst h0; decide
  · have hhead : ¬(toHex n).head? = some '+' := by
      cases hh : (toHex n).head? with
      | none => simp
      | some c =>
        have hc : c ∈ toHex n := by
          cases hl : toHex n with
          | nil => rw [hl] at hh; cases hh
          | cons x xs =>
            rw [hl] at hh
            simp only [List.head?] at hh
            have hx : x = c := Option.some.inj hh
            rw [← hx]
            exact List.mem_cons_self x xs
        have hne := (lowerHex_props c (toHex_chars n c hc)).2.2.2.1
        simp [hne]
    simp only [fromStrRadix16, if_neg hhead]
    rw [if_neg (fun hh => toHex_ne_nil n (List.isEmpty_iff.mp hh))]
    have hds : ∀ d ∈ Nat.digits 16 n, d < 16 :=
      fun d hd => Nat.digits_lt_base (by norm_num) hd
    rw [toHex_eq_digits n h0, parseFold_digits _ hds 0]
    simp only [Nat.zero_mul, Nat.zero_add, Nat.ofDigits_digits]
    rw [if_pos h]

/-! ## Trimming and splitting an encoded line -/

/-- Trimming an encoded line strips exactly the enclosing bracket pair when
the enclosed text neither starts nor ends with a trimmed character. -/
lemma trimBrackets_entry (c₀ : Char) (mid : RStr)
    (h₀ : isTrimChar c₀ = false)
    (hlast : ∀ c, (c₀ :: mid).getLast? = some c → isTrimChar c = false) :
    trimBrackets ('[' :: (c₀ :: mid) ++ [']']) = c₀ :: mid := by
  rw [trimBrackets]
  rw [show ('[' :: (c₀ :: mid) ++ [']']) = '[' :: ((c₀ :: mid) ++ [']'])
    from rfl]
  rw [List.dropWhile_cons, if_pos (show isTrimChar '[' = true from rfl)]
  rw [List.cons_append, List.dropWhile_cons]
  simp only [h₀, Bool.false_eq_true, if_false]
  rw [show c₀ :: (mid ++ [']']) = (c₀ :: mid) ++ [']'] from rfl]
  rw [show ((c₀ :: mid) ++ [']']).reverse = ']' :: (c₀ :: mid).reverse from by
    rw [List.reverse_append]; rfl]
  rw [List.dropWhile_cons, if_pos (show isTrimChar ']' = true from rfl)]
  cases hrev : (c₀ :: mid).reverse with
  | nil => exact absurd hrev (by simp)
  | cons c r =>
    have hlc : (c₀ :: mid).getLast? = some c := by
      rw [← List.head?_reverse, hrev]; rfl
    rw [List.dropWhile_cons]
    simp only [hlast c hlc, Bool.false_eq_true, if_false]
    rw [← hrev, List.reverse_reverse]

/-- A string with no space character is one single field. -/
lemma splitPipe_noSpace (l : RStr) (h : ∀ c ∈ l, c ≠ ' ') :
    splitPipe l = [l] := by
  induction l with
  | nil => rfl
  | cons c1 rest ih =>
    rcases rest with _ | ⟨c2, _ | ⟨c3, rest3⟩⟩
    · rfl
    · rfl
    · have hc1 : c1 ≠ ' ' := h c1 (List.mem_cons_self _ _)
      rw [splitPipe, if_neg (fun hand => hc1 hand.1)]
      rw [ih (fun c hc => h c (List.mem_cons_of_mem _ hc))]
      rfl

/-- The separator test only looks two characters past a prefix: stripping
the head of a long string preserves a negative test. -/
lemma hasSep_tail (c : Char) (t : RStr) (h : hasSep (c :: t) = false) :
    hasSep t = false := by
  rcases t with _ | ⟨x, _ | ⟨y, t'⟩⟩
  · rfl
  · rfl
  · rw [hasSep] at h
    by_cases hw : c = ' ' ∧ x = '|' ∧ y = ' '
    · rw [if_pos hw] at h
      exact Bool.noConfusion h
    · rwa [if_neg hw] at h

/-- Splitting the encoded field pair: when the left field contains no
occurrence of the separator (not even one straddling into the separator
that follows it) and the right field has no space, the split returns
exactly the two fields. -/
lemma splitPipe_entry (hex : RStr) (hx : ∀ c ∈ hex, c ≠ ' ') :
    ∀ (d : RStr), hasSep (d ++ [' ', '|']) = false →
      splitPipe (d ++ ' ' :: '|' :: ' ' :: hex) = [d, hex] := by
  intro d
  induction d with
  | nil =>
    intro _
    rw [List.nil_append, splitPipe, if_pos ⟨rfl, rfl, rfl⟩,
      splitPipe_noSpace hex hx]
  | cons c1 d' ih =>
    intro hd
    have hd'tail : hasSep (d' ++ [' ', '|']) = false := by
      refine hasSep_tail c1 _ ?_
      simp only [List.cons_append] at hd
      exact hd
    have ihs := ih hd'tail
    rcases d' with _ | ⟨x, _ | ⟨y, d''⟩⟩
    · rw [List.cons_append, List.nil_append, splitPipe,
        if_neg (fun hand => absurd hand.2.1 (by decide))]
      rw [splitPipe, if_pos ⟨rfl, rfl, rfl⟩, splitPipe_noSpace hex hx]
      rfl
    · simp only [List.cons_append, List.nil_append] at ihs hd ⊢
      by_cases hc : c1 = ' ' ∧ x = '|'
      · exfalso
        rw [hasSep, if_pos ⟨hc.1, hc.2, rfl⟩] at hd
        exact Bool.noConfusion hd
      · rw [splitPipe, if_neg (fun hand => hc ⟨hand.1, hand.2.1⟩), ihs]
        rfl
    · simp only [List.cons_append] at ihs hd ⊢
      by_cases hc : c1 = ' ' ∧ x = '|' ∧ y = ' '
      · exfalso
        rw [hasSep, if_pos hc] at hd
        exact Bool.noConfusion hd
      · rw [splitPipe, if_neg hc, ihs]
        rfl

/-! ## Displaying and re-parsing relative paths -/

/-- A string with no separator character is one single component. -/
lemma splitSlash_noSlash (l : RStr) (h : ∀ c ∈ l, c ≠ '/') :
    splitSlash l = [l] := by
  induction l with
  | nil => rfl
  | cons c rest ih =>
    rw [splitSlash, if_neg (h c (List.mem_cons_self _ _))]
    rw [ih (fun x hx => h x (List.mem_cons_of_mem _ hx))]
    rfl

/-- Splitting on the separator ignores a separator-free prefix up to its
own cell. -/
lemma splitSlash_append (a t : RStr) (h : ∀ c ∈ a, c ≠ '/') :
    splitSlash (a ++ '/' :: t) = a :: splitSlash t := by
  induction a with
  | nil => rw [List.nil_append, splitSlash, if_pos rfl]
  | cons c a' ih =>
    rw [List.cons_append, splitSlash, if_neg (h c (List.mem_cons_self _ _))]
    rw [ih (fun x hx => h x (List.mem_cons_of_mem _ hx))]
    rfl

/-- Splitting the displayed path on the separator recovers the components
when they are separator-free and the path is nonempty. -/
lemma splitSlash_display (comps : RPath) :
    comps ≠ [] → (∀ cc ∈ comps, ∀ ch ∈ cc, ch ≠ '/') →
    splitSlash (displayPath comps) = comps := by
  induction comps with
  | nil => intro h _; exact absurd rfl h
  | cons c rest ih =>
    intro _ h
    rcases rest with _ | ⟨c2, rest2⟩
    · exact splitSlash_noSlash c (h c (List.mem_cons_self _ _))
    · rw [displayPath, splitSlash_append c _ (h c (List.mem_cons_self _ _))]
      rw [ih (by simp) (fun cc hcc => h cc (List.mem_cons_of_mem _ hcc))]

/-- Re-parsing the displayed path gives back the components when they are,
as a directory walk produces them, nonempty and separator-free. -/
lemma parseComponents_display (comps : RPath)
    (hne : comps ≠ [])
    (hok : ∀ cc ∈ comps, cc ≠ [] ∧ ∀ ch ∈ cc, ch ≠ '/') :
    parseComponents (displayPath comps) = comps := by
  rw [parseComponents, splitSlash_display comps hne (fun cc h => (hok cc h).2)]
  rw [List.filter_eq_self]
  intro cc hcc
  cases hc : cc.isEmpty
  · rfl
  · exact absurd (List.isEmpty_iff.mp hc) (hok cc hcc).1

/-- The first character of a displayed path with a nonempty first component
is that component's first character. -/
lemma displayPath_head (c₀ : Char) (r : RStr) (rest : RPath) :
    (displayPath ((c₀ :: r) :: rest)).head? = some c₀ := by
  rcases rest with _ | ⟨c2, rest2⟩
  · rfl
  · rw [displayPath]
    rfl

/-- Every character of a displayed path is the separator or a character of
some component. -/
lemma mem_displayPath (ch : Char) (comps : RPath) :
    ch ∈ displayPath comps → ch = '/' ∨ ∃ cc ∈ comps, ch ∈ cc := by
  induction comps with
  | nil => intro h; cases h
  | cons c rest ih =>
    intro h
    rcases rest with _ | ⟨c2, rest2⟩
    · exact Or.inr ⟨c, List.mem_cons_self _ _, h⟩
    · rw [displayPath, List.mem_append] at h
      rcases h with h | h
      · exact Or.inr ⟨c, List.mem_cons_self _ _, h⟩
      · rcases List.mem_cons.mp h with rfl | h
        · exact Or.inl rfl
        · rcases ih h with h | ⟨cc, h1, h2⟩
          · exact Or.inl h
          · exact Or.inr ⟨cc, List.mem_cons_of_mem _ h1, h2⟩

/-- Concatenating the root with the root-stripped suffix of a path under it
recovers the path. -/
lemma append_dropRoot (folder : RPath) :
    ∀ (p : RPath), folder.isPrefixOf p = true →
      folder ++ dropRoot folder p = p := by
  induction folder with
  | nil => intro p _; simp [dropRoot]
  | cons a f ih =>
    intro p h
    rcases p with _ | ⟨b, pt⟩
    · simp [List.isPrefixOf] at h
    · rw [List.isPrefixOf] at h
      rw [Bool.and_eq_true, beq_iff_eq] at h
      rw [show dropRoot (a :: f) (b :: pt) = dropRoot f pt from rfl]
      rw [List.cons_append, ih pt h.2, h.1]

/-! ## Decoding one encoded manifest line -/

/-- A defined last element is a member. -/
lemma getLast?_mem {α : Type} (l : List α) (c : α) (h : l.getLast? = some c) :
    c ∈ l := by
  cases hl : l.reverse with
  | nil => rw [← List.head?_reverse, hl] at h; cases h
  | cons x xs =>
    rw [← List.head?_reverse, hl] at h
    simp only [List.head?] at h
    have hx : x ∈ l.reverse := hl ▸ List.mem_cons_self x xs
    rw [List.mem_reverse] at hx
    rwa [← Option.some.inj h]

/-- Unpacking `goodPath`. -/
lemma goodPath_parts (folder p : RPath) (h : goodPath folder p = true) :
    folder.isPrefixOf p = true ∧ dropRoot folder p ≠ [] ∧
      (∀ cc ∈ dropRoot folder p, goodComp cc = true) ∧
      cleanDisp (displayPath (dropRoot folder p)) = true := by
  rw [goodPath] at h
  simp only [Bool.and_eq_true] at h
  refine ⟨h.1.1.1, ?_, ?_, h.2⟩
  · intro h0
    have hb := h.1.1.2
    rw [h0] at hb
    exact Bool.noConfusion hb
  · intro cc hcc
    have hall := h.1.2
    rw [List.all_eq_true] at hall
    exact hall cc hcc

/-- Unpacking `goodComp`. -/
lemma goodComp_parts (c : RStr) (h : goodComp c = true) :
    c ≠ [] ∧ ∀ ch ∈ c, ch ≠ '/' ∧ ch ≠ '\n' := by
  rw [goodComp, Bool.and_eq_true] at h
  constructor
  · intro h0
    have hb := h.1
    rw [h0] at hb
    exact Bool.noConfusion hb
  · intro ch hch
    have hall := h.2
    rw [List.all_eq_true] at hall
    have h2 := hall ch hch
    rw [Bool.and_eq_true] at h2
    exact ⟨bne_iff_ne.mp h2.1, bne_iff_ne.mp h2.2⟩

/-- Unpacking `cleanDisp`. -/
lemma cleanDisp_parts (d : RStr) (h : cleanDisp d = true) :
    (∃ c, d.head? = some c ∧ isTrimChar c = false) ∧
      hasSep (d ++ [' ', '|']) = false := by
  rw [cleanDisp, Bool.and_eq_true] at h
  constructor
  · have h1 := h.1
    cases hh : d.head? with
    | none =>
      rw [hh] at h1
      exact Bool.noConfusion h1
    | some c =>
      rw [hh] at h1
      rw [Bool.not_eq_true'] at h1
      exact ⟨c, rfl, h1⟩
  · have h2 := h.2
    rwa [Bool.not_eq_true'] at h2

/-- Decoding the line `export_all_hash` writes for a `goodPath` recovers
exactly the path and its digest. -/
lemma decode_entryLine (hashes : HM) (folder p : RPath) (h : Nat)
    (hfind : hmFind hashes p = some h) (hlt : h < 2 ^ 128)
    (hgood : goodPath folder p = true) :
    decodeLine folder (entryLine hashes folder p) = LineRes.entry p h := by
  obtain ⟨hpre, hne, hcomps, hdisp⟩ := goodPath_parts folder p hgood
  obtain ⟨⟨c₀, hhead, htrim⟩, hsep⟩ := cleanDisp_parts _ hdisp
  have hfind' : (hmFind hashes p).getD 0 = h := by rw [hfind, Option.getD_some]
  have hhexlower := toHex_chars h
  have hnospace : ∀ c ∈ toHex h, c ≠ ' ' :=
    fun c hc => (lowerHex_props c (hhexlower c hc)).1
  obtain ⟨dtail, hdtail⟩ :
      ∃ dtail, displayPath (dropRoot folder p) = c₀ :: dtail := by
    cases hdc : displayPath (dropRoot folder p) with
    | nil => rw [hdc] at hhead; cases hhead
    | cons x xs =>
      rw [hdc] at hhead
      simp only [List.head?] at hhead
      exact ⟨xs, by rw [Option.some.inj hhead]⟩
  have htrimmed : trimBrackets (entryLine hashes folder p) =
      displayPath (dropRoot folder p) ++ [' ', '|', ' '] ++ toHex h := by
    rw [entryLine, hfind', hdtail]
    have hlast : ∀ c,
        (c₀ :: (dtail ++ [' ', '|', ' '] ++ toHex h)).getLast? = some c →
        isTrimChar c = false := by
      intro c hc
      rw [show c₀ :: (dtail ++ [' ', '|', ' '] ++ toHex h) =
        (c₀ :: (dtail ++ [' ', '|', ' '])) ++ toHex h from by
          simp [List.append_assoc]] at hc
      rw [List.getLast?_append] at hc
      cases ht : toHex h with
      | nil => exact absurd ht (toHex_ne_nil h)
      | cons a as =>
        rw [ht] at hc
        rcases hx : (a :: as).getLast? with _ | x
        · have := getLast?_cons_isSome a as
          rw [hx] at this
          cases this
        · rw [hx] at hc
          simp only [Option.or] at hc
          have hcx : c = x := (Option.some.inj hc).symm
          have hmem : c ∈ toHex h := by
            rw [ht, hcx]
            exact getLast?_mem (a :: as) x hx
          exact (lowerHex_props c (hhexlower c hmem)).2.2.2.2.2.2
    exact trimBrackets_entry c₀ (dtail ++ [' ', '|', ' '] ++ toHex h)
      htrim hlast
  have hsplit : splitPipe (trimBrackets (entryLine hashes folder p)) =
      [displayPath (dropRoot folder p), toHex h] := by
    rw [htrimmed, List.append_assoc]
    exact splitPipe_entry (toHex h) hnospace _ hsep
  obtain ⟨cc₀, relt, hrel⟩ :
      ∃ cc₀ relt, dropRoot folder p = cc₀ :: relt := by
    cases hr : dropRoot folder p with
    | nil => exact absurd hr hne
    | cons a b => exact ⟨a, b, rfl⟩
  have hg : goodComp cc₀ = true := hcomps cc₀ (hrel ▸ List.mem_cons_self cc₀ relt)
  obtain ⟨ch, chr, hcc⟩ : ∃ ch chr, cc₀ = ch :: chr := by
    obtain ⟨hcne, -⟩ := goodComp_parts cc₀ hg
    cases hc : cc₀ with
    | nil => exact absurd hc hcne
    | cons a b => exact ⟨a, b, rfl⟩
  have hch : ch ≠ '/' :=
    ((goodComp_parts cc₀ hg).2 ch (hcc ▸ List.mem_cons_self ch chr)).1
  have hpush : pushPath folder (displayPath (dropRoot folder p)) = p := by
    have hheadd : (displayPath (dropRoot folder p)).head? = some ch := by
      rw [hrel, hcc]
      exact displayPath_head ch chr relt
    rw [pushPath, if_neg (by
      rw [hheadd]
      intro hc
      exact hch (Option.some.inj hc))]
    rw [parseComponents_display (dropRoot folder p) hne (fun cc hcc' =>
      ⟨(goodComp_parts cc (hcomps cc hcc')).1,
        fun ch' hch' => ((goodComp_parts cc (hcomps cc hcc')).2 ch' hch').1⟩)]
    exact append_dropRoot folder p hpre
  rw [decodeLine, hsplit]
  simp only [fromStr_toHex h hlt, hpush]

/-! ## The exported manifest's line structure (claim C4) -/

/-- An encoded line carries no newline (given its path part carries none)
and never ends in a carriage return (it ends in the closing bracket). -/
lemma entryLine_line_ok (cache : HM) (folder p : RPath)
    (hnl : '\n' ∉ displayPath (dropRoot folder p)) :
    '\n' ∉ entryLine cache folder p ∧
      (entryLine cache folder p).getLast? ≠ some '\r' := by
  constructor
  · intro hmem
    rw [entryLine, List.mem_append] at hmem
    rcases hmem with hmem | hmem
    · rcases List.mem_cons.mp hmem with he | hmem
      · exact absurd he (by decide)
      · rw [List.mem_append] at hmem
        rcases hmem with hmem | hmem
        · rw [List.mem_append] at hmem
          rcases hmem with hmem | hmem
          · exact hnl hmem
          · exact absurd hmem (by decide)
        · have := (lowerHex_props '\n'
            (toHex_chars ((hmFind cache p).getD 0) '\n' hmem)).2.1
          exact this rfl
    · rw [List.mem_singleton] at hmem
      exact absurd hmem (by decide)
  · rw [entryLine, List.getLast?_concat]
    intro hc
    exact absurd (Option.some.inj hc) (by decide)

/-- C4 (amended): a generate run whose discovered paths are under the root
and whose displayed relative paths carry no newline exports one line per
discovered file, in discovery order — not completion order: any completed
hash cache that records, for each discovered path, exactly its computed
digest yields the same content — each line of the form
`[<root-stripped path> | <digest hex>]`, where the digest rendering uses
lowercase hexadecimal digits and no leading-zero padding. -/
theorem manifest_line_order (fs : FS) (folder : RPath) (paths : List RPath)
    (cache : HM)
    (hcache : ∀ p ∈ paths, ∃ hsh, computeHash fs p = Except.ok hsh ∧
      hmFind cache p = some hsh)
    (hunder : ∀ p ∈ paths, folder.isPrefixOf p = true)
    (hnl : ∀ p ∈ paths, '\n' ∉ displayPath (dropRoot folder p)) :
    (exportAllHash cache paths folder).res = ExpRes.ok ∧
    rustLines (exportAllHash cache paths folder).content =
      paths.map (fun p => entryLine cache folder p) ∧
    (∀ p ∈ paths, ∃ hsh, computeHash fs p = Except.ok hsh ∧
      entryLine cache folder p =
        ('[' :: (displayPath (dropRoot folder p) ++ [' ', '|', ' '] ++
          toHex hsh)) ++ [']']) ∧
    (∀ n : Nat, (∀ c ∈ toHex n, c ∈ lowerHexChars) ∧
      (n ≠ 0 → (toHex n).head? ≠ some '0')) := by
  have hexp := exportLoop_ok cache folder paths []
    (fun p hp => by
      obtain ⟨hsh, -, hc2⟩ := hcache p hp
      exact ⟨by rw [hc2]; rfl, hunder p hp⟩)
  refine ⟨?_, ?_, ?_, ?_⟩
  · rw [exportAllHash, hexp]
  · rw [exportAllHash, hexp]
    simp only [List.nil_append]
    rw [show (paths.map (fun p => entryLine cache folder p ++ ['\n'])) =
      (paths.map (fun p => entryLine cache folder p)).map
        (fun l => l ++ ['\n']) from by rw [List.map_map]; rfl]
    apply rustLines_flatten
    intro l hl
    obtain ⟨p, hp, rfl⟩ := List.mem_map.mp hl
    exact entryLine_line_ok cache folder p (hnl p hp)
  · intro p hp
    obtain ⟨hsh, hc1, hc2⟩ := hcache p hp
    exact ⟨hsh, hc1, by rw [entryLine, hc2, Option.getD_some]⟩
  · exact fun n => ⟨toHex_chars n, toHex_head_ne_zero n⟩

/-- Witness for C4 (amended): a one-file tree exports exactly its one line. -/
theorem manifest_line_order_wit :
    (exportAllHash [([['r'], ['a']], 259)] [[['r'], ['a']]] [['r']]).res =
      ExpRes.ok ∧
    rustLines (exportAllHash [([['r'], ['a']], 259)]
        [[['r'], ['a']]] [['r']]).content =
      ([[['r'], ['a']]] : List RPath).map
        (fun p => entryLine [([['r'], ['a']], 259)] [['r']] p) ∧
    (∀ p ∈ ([[['r'], ['a']]] : List RPath), ∃ hsh,
      computeHash
        (fun q => if q == [['r'], ['a']] then FsFile.contents [0, 1]
          else FsFile.absent) p = Except.ok hsh ∧
      entryLine [([['r'], ['a']], 259)] [['r']] p =
        ('[' :: (displayPath (dropRoot [['r']] p) ++ [' ', '|', ' '] ++
          toHex hsh)) ++ [']']) ∧
    (∀ n : Nat, (∀ c ∈ toHex n, c ∈ lowerHexChars) ∧
      (n ≠ 0 → (toHex n).head? ≠ some '0')) :=
  manifest_line_order
    (fun q => if q == [['r'], ['a']] then FsFile.contents [0, 1]
      else FsFile.absent)
    [['r']] [[['r'], ['a']]] [([['r'], ['a']], 259)]
    (fun p hp => by
      rw [List.mem_singleton] at hp
      exact ⟨259, by subst hp; rfl, by subst hp; rfl⟩)
    (by decide) (by decide)

/-- Counterexample to C4 as stated: a discovered file whose name contains a
newline yields a manifest with two lines for the single file, so the
exported manifest does not have exactly one line per discovered file. -/
theorem manifest_line_claim_cex :
    computeHash
      (fun q => if q == [['r'], ['a', '\n', 'b']] then FsFile.contents [0, 1]
        else FsFile.absent)
      [['r'], ['a', '\n', 'b']] = Except.ok 259 ∧
    hmFind [([['r'], ['a', '\n', 'b']], 259)] [['r'], ['a', '\n', 'b']] =
      some 259 ∧
    ([['r']] : RPath).isPrefixOf [['r'], ['a', '\n', 'b']] = true ∧
    ¬ claimC4At [([['r'], ['a', '\n', 'b']], 259)]
      [[['r'], ['a', '\n', 'b']]] [['r']] := by
  refine ⟨rfl, rfl, rfl, ?_⟩
  intro hclaim
  rw [claimC4At] at hclaim
  exact absurd hclaim (by decide)

/-! ## The codec round trip (claim C1) -/

/-- The entries of a list of lines each decoding to a keyed entry. -/
lemma decodedEntries_of_entries (folder : RPath) (eL : RPath → RStr)
    (val : RPath → Nat) :
    ∀ (paths : List RPath),
      (∀ p ∈ paths, decodeLine folder (eL p) = LineRes.entry p (val p)) →
      decodedEntries folder (paths.map eL) =
        paths.map (fun p => (p, val p)) := by
  intro paths
  induction paths with
  | nil => intro _; rfl
  | cons p rest ih =>
    intro h
    simp only [decodedEntries, List.map_cons, List.filterMap_cons,
      h p (List.mem_cons_self p rest)]
    have hrest := ih (fun q hq => h q (List.mem_cons_of_mem _ hq))
    simp only [decodedEntries] at hrest
    rw [hrest]

/-- Looking a key up in the reversed key-value rendering of a list of keys
finds the keyed value exactly for the listed keys. -/
lemma hmFind_reverse_mapSelf (f : RPath → Nat) (q : RPath) :
    ∀ (L : List RPath),
      hmFind ((L.map (fun p => (p, f p))).reverse) q =
        if q ∈ L then some (f q) else none := by
  intro L
  induction L with
  | nil => simp [hmFind]
  | cons p L' ih =>
    rw [List.map_cons, List.reverse_cons, hmFind_append, ih]
    by_cases hq : q ∈ L'
    · rw [if_pos hq, if_pos (List.mem_cons_of_mem p hq)]
      rfl
    · rw [if_neg hq]
      by_cases hpq : p = q
      · subst hpq
        rw [if_pos (List.mem_cons_self p L')]
        simp [hmFind_single]
      · rw [if_neg (by
          intro hmem
          rcases List.mem_cons.mp hmem with rfl | hm
          · exact hpq rfl
          · exact hq hm)]
        simp [hmFind_single, hpq]

/-- C1 (amended): for a manifest whose listed paths all carry a digest below
the `u128` bound and are `goodPath`s — strictly under the root, with
nonempty separator-free newline-free components, a displayed relative path
that does not start with a bracket or space character and contains no
occurrence of the field separator (nor ends in a space-bar pair) —
encoding with `export_all_hash` and decoding with `read_hash_file` over
the same root reproduces exactly the recorded path-to-digest mapping. -/
theorem roundtrip_amended (hashes : HM) (paths : List RPath) (folder : RPath)
    (hdig : ∀ p ∈ paths, (hmFind hashes p).isSome = true ∧
      (hmFind hashes p).getD 0 < 2 ^ 128)
    (hgood : ∀ p ∈ paths, goodPath folder p = true) :
    ∃ m, readHashFile folder (exportAllHash hashes paths folder).content =
        Except.ok m ∧
      (∀ p ∈ paths, hmFind m p = hmFind hashes p) ∧
      (∀ q, (hmFind m q).isSome = true → q ∈ paths) := by
  have hexp := exportLoop_ok hashes folder paths []
    (fun p hp => ⟨(hdig p hp).1, (goodPath_parts folder p (hgood p hp)).1⟩)
  have hlines : rustLines (exportAllHash hashes paths folder).content =
      paths.map (fun p => entryLine hashes folder p) := by
    rw [exportAllHash, hexp]
    simp only [List.nil_append]
    rw [show (paths.map (fun p => entryLine hashes folder p ++ ['\n'])) =
      (paths.map (fun p => entryLine hashes folder p)).map
        (fun l => l ++ ['\n']) from by rw [List.map_map]; rfl]
    apply rustLines_flatten
    intro l hl
    obtain ⟨p, hp, rfl⟩ := List.mem_map.mp hl
    have hnl : '\n' ∉ displayPath (dropRoot folder p) := by
      intro hmem
      rcases mem_displayPath '\n' _ hmem with he | ⟨cc, h1, h2⟩
      · exact absurd he (by decide)
      · exact ((goodComp_parts cc
          ((goodPath_parts folder p (hgood p hp)).2.2.1 cc h1)).2 '\n' h2).2 rfl
    exact entryLine_line_ok hashes folder p hnl
  have hdec : ∀ p ∈ paths, decodeLine folder (entryLine hashes folder p) =
      LineRes.entry p ((hmFind hashes p).getD 0) := by
    intro p hp
    obtain ⟨hs, hlt⟩ := hdig p hp
    obtain ⟨hv, hveq⟩ := Option.isSome_iff_exists.mp hs
    have hgd : (hmFind hashes p).getD 0 = hv := by
      rw [hveq, Option.getD_some]
    rw [hgd] at hlt ⊢
    exact decode_entryLine hashes folder p hv hveq hlt (hgood p hp)
  refine ⟨(paths.map (fun p => (p, (hmFind hashes p).getD 0))).reverse,
    ?_, ?_, ?_⟩
  · rw [readHashFile, hlines]
    rw [readLines_ok folder _ [] (fun l hl => by
      obtain ⟨p, hp, rfl⟩ := List.mem_map.mp hl
      rw [lineOKb, hdec p hp])]
    rw [decodedEntries_of_entries folder _ _ paths hdec, List.append_nil]
  · intro p hp
    rw [hmFind_reverse_mapSelf _ p paths, if_pos hp]
    obtain ⟨hs, -⟩ := hdig p hp
    obtain ⟨hv, hveq⟩ := Option.isSome_iff_exists.mp hs
    rw [hveq, Option.getD_some]
  · intro q hq
    rw [hmFind_reverse_mapSelf _ q paths] at hq
    by_cases hmem : q ∈ paths
    · exact hmem
    · rw [if_neg hmem] at hq
      exact Bool.noConfusion hq

/-- Witness for C1 (amended): a one-entry manifest round-trips. -/
theorem roundtrip_amended_wit :
    ∃ m, readHashFile [['r']]
        (exportAllHash [([['r'], ['a']], 259)] [[['r'], ['a']]] [['r']]).content =
        Except.ok m ∧
      (∀ p ∈ ([[['r'], ['a']]] : List RPath),
        hmFind m p = hmFind [([['r'], ['a']], 259)] p) ∧
      (∀ q, (hmFind m q).isSome = true → q ∈ ([[['r'], ['a']]] : List RPath)) :=
  roundtrip_amended [([['r'], ['a']], 259)] [[['r'], ['a']]] [['r']]
    (by decide) (by decide)

/-- Counterexample to C1 as stated: a file whose name contains the field
separator `" | "` has a digest in the exported manifest, yet decoding the
export yields a mapping without it (its line splits into three fields and
is skipped), so the round trip loses the entry. The input is a manifest a
generate run can produce: the path carries a digest and sits under the
root. -/
theorem roundtrip_claim_cex :
    (∀ p ∈ [[['r'], ['a', ' ', '|', ' ', 'b']]],
      (hmFind [([['r'], ['a', ' ', '|', ' ', 'b']], 1)] p).isSome = true ∧
      ([['r']] : RPath).isPrefixOf p = true) ∧
    ¬ roundTripOK [([['r'], ['a', ' ', '|', ' ', 'b']], 1)]
      [[['r'], ['a', ' ', '|', ' ', 'b']]] [['r']] := by
  refine ⟨by decide, ?_⟩
  rintro ⟨m, hm, hall⟩
  rw [show readHashFile [['r']]
      (exportAllHash [([['r'], ['a', ' ', '|', ' ', 'b']], 1)]
        [[['r'], ['a', ' ', '|', ' ', 'b']]] [['r']]).content =
      Except.ok ([] : HM) from rfl] at hm
  have hme : ([] : HM) = m := Except.ok.inj hm
  have h1 := hall [['r'], ['a', ' ', '|', ' ', 'b']]
    (List.mem_cons_self _ _)
  rw [← hme] at h1
  exact absurd h1 (by decide)

end XXHV
